import Mathlib

/-!
Shallow embedding of `src/backend/src/agent/key_manager.py`
(`GeminiKeyManager`, a round-robin pool of Gemini API keys with failover),
together with proofs of the specification claims about it.

Modelling conventions:
* Python wall-clock timestamps (`time.time()`) are abstract `Nat` ticks,
  supplied explicitly as a `now` argument to each operation that reads the clock.
* A caller-supplied unit of work (`fn: Callable[[str], T]`) is a pure function
  `String → Except String T`; a raised exception is the `.error` case, carrying
  `str(exc)` (the code only ever consumes exceptions through `str`).
* Python negative slicing `key[-n:]` is translated as
  `key.drop (key.length - n)`, which agrees with Python's clamping semantics
  on strings shorter than `n` (Nat subtraction truncates at zero).
* `datetime.fromtimestamp(ts, utc).isoformat()` is abstracted to an injective
  rendering of the abstract tick (`toString`); no claim depends on the exact
  ISO-8601 text.
* In-place mutation of one list element becomes `setRecord` (functional update
  at an index); the Python `threading.Lock` makes each bookkeeping operation
  atomic, so the state machine steps are exactly these whole operations.
-/

instance {ε α : Type _} [DecidableEq ε] [DecidableEq α] : DecidableEq (Except ε α) := fun x y =>
  match x, y with
  | .ok a, .ok b =>
    if h : a = b then .isTrue (congrArg Except.ok h)
    else .isFalse (fun hc => h (Except.ok.inj hc))
  | .error a, .error b =>
    if h : a = b then .isTrue (congrArg Except.error h)
    else .isFalse (fun hc => h (Except.error.inj hc))
  | .ok _, .error _ => .isFalse (fun hc => Except.noConfusion hc)
  | .error _, .ok _ => .isFalse (fun hc => Except.noConfusion hc)

/-- One record per API key, mirroring the `GeminiKeyRecord` dataclass. -/
structure GeminiKeyRecord where
  raw_key : String
  masked_key : String
  status : String := "idle"
  disabled : Bool := false
  last_error : Option String := none
  last_used_at : Option Nat := none
  last_success_at : Option Nat := none
  last_failure_at : Option Nat := none
  success_count : Nat := 0
  failure_count : Nat := 0
  last_used : Bool := false
deriving DecidableEq

instance : Inhabited GeminiKeyRecord :=
  ⟨{ raw_key := "", masked_key := "" }⟩

/-- `GeminiKeyManager._mask_key`: `key[:2] + "***" + key[-2:]` for length ≤ 10,
else `key[:6] + "..." + key[-4:]`.  Python `key[-n:]` is `key.drop (key.length - n)`. -/
def mask_key (key : String) : String :=
  if key.length ≤ 10 then
    key.take 2 ++ "***" ++ key.drop (key.length - 2)
  else
    key.take 6 ++ "..." ++ key.drop (key.length - 4)

/-- Construction of one record in `GeminiKeyManager.__init__`. -/
def mkRecord (key : String) : GeminiKeyRecord :=
  { raw_key := key, masked_key := mask_key key }

/-- The mutable state of a `GeminiKeyManager` instance:
`_records`, `_next_index`, `_last_used_index`. -/
structure GeminiKeyManager where
  records : List GeminiKeyRecord
  next_index : Nat
  last_used_index : Option Nat
deriving DecidableEq

/-- The state built by `GeminiKeyManager.__init__` (after its non-empty check). -/
def mkManagerState (keys : List String) : GeminiKeyManager :=
  { records := keys.map mkRecord, next_index := 0, last_used_index := none }

/-- `GeminiKeyManager.__init__`, including the `ValueError` on an empty key list. -/
def mkManager (keys : List String) : Except String GeminiKeyManager :=
  if keys = [] then
    .error "GeminiKeyManager requires at least one API key. Set GEMINI_API_KEYS or GEMINI_API_KEY."
  else
    .ok (mkManagerState keys)

/-- Read the record at an index (Python `self._records[index]`; the default is
never reached on the indices the code uses). -/
def getRec (records : List GeminiKeyRecord) (i : Nat) : GeminiKeyRecord :=
  (records[i]?).getD default

/-- In-place mutation of the record at an index (no-op when out of range,
which never happens on the indices the code uses). -/
def setRecord (records : List GeminiKeyRecord) (i : Nat)
    (f : GeminiKeyRecord → GeminiKeyRecord) : List GeminiKeyRecord :=
  match records[i]? with
  | none => records
  | some r => records.set i (f r)

/-- The scan loop of `_activate_next_index`: for `offset` in range, examine
`(start + offset) % total` and return the first non-disabled index. -/
def scanFrom (records : List GeminiKeyRecord) (start : Nat) :
    (offset remaining : Nat) → Option Nat
  | _, 0 => none
  | offset, remaining + 1 =>
    let index := (start + offset) % records.length
    match records[index]? with
    | none => none
    | some r =>
      if r.disabled then scanFrom records start (offset + 1) remaining
      else some index

/-- The mutation `_activate_next_index` performs on the selected index:
`record.status = "active"`, `record.last_used_at = now`,
`self._next_index = (index + 1) % total`. -/
def activateAt (m : GeminiKeyManager) (index : Nat) (now : Nat) : GeminiKeyManager :=
  { m with
    records := setRecord m.records index
      (fun r => { r with status := "active", last_used_at := some now }),
    next_index := (index + 1) % m.records.length }

/-- `GeminiKeyManager._activate_next_index`: scan up to `size` slots from the
cursor, skip disabled records, activate and return the first eligible index;
`none` when every record is disabled. -/
def activate_next_index (m : GeminiKeyManager) (now : Nat) :
    Option Nat × GeminiKeyManager :=
  match scanFrom m.records m.next_index 0 m.records.length with
  | none => (none, m)
  | some index => (some index, activateAt m index now)

/-- The first half of `_record_success`: if another record currently holds
`last_used = True` (tracked by `_last_used_index`) and it is not this index,
clear its flag. -/
def clear_prev_last_used (m : GeminiKeyManager) (index : Nat) : List GeminiKeyRecord :=
  match m.last_used_index with
  | some prev =>
    if prev ≠ index then
      setRecord m.records prev (fun r => { r with last_used := false })
    else m.records
  | none => m.records

/-- `GeminiKeyManager._record_success`. -/
def record_success (m : GeminiKeyManager) (index : Nat) (now : Nat) : GeminiKeyManager :=
  { m with
    records := setRecord (clear_prev_last_used m index) index (fun r =>
      { r with
        status := "healthy", last_error := none, last_success_at := some now,
        success_count := r.success_count + 1, last_used := true,
        last_used_at := some now }),
    last_used_index := some index }

/-- `GeminiKeyManager._record_failure`. -/
def record_failure (m : GeminiKeyManager) (index : Nat) (error : String) (now : Nat) :
    GeminiKeyManager :=
  { m with
    records := setRecord m.records index (fun r =>
      { r with
        status := "failed", last_error := some error, last_failure_at := some now,
        failure_count := r.failure_count + 1, disabled := true, last_used := false }),
    last_used_index := if m.last_used_index = some index then none else m.last_used_index }

/-- The `GeminiKeyExhaustedError` raised by `run_with_key`. -/
structure GeminiKeyExhaustedError where
  message : String
  errors : List String
deriving DecidableEq

/-- The message `run_with_key` raises with. -/
def exhaustedMessage : String :=
  "All Gemini API keys failed. Review key statuses for details."

/-- The `for _ in range(len(self._records))` loop of `run_with_key`,
with the range length as fuel and the accumulated error list threaded. -/
def runLoop {T : Type} (fn : String → Except String T) (now : Nat) :
    (fuel : Nat) → GeminiKeyManager → List String →
    Except GeminiKeyExhaustedError T × GeminiKeyManager
  | 0, m, errors => (.error ⟨exhaustedMessage, errors⟩, m)
  | fuel + 1, m, errors =>
    match activate_next_index m now with
    | (none, m₁) => (.error ⟨exhaustedMessage, errors⟩, m₁)
    | (some index, m₁) =>
      match fn ((getRec m₁.records index).raw_key) with
      | .error exc => runLoop fn now fuel (record_failure m₁ index exc now) (errors ++ [exc])
      | .ok result => (.ok result, record_success m₁ index now)

/-- `GeminiKeyManager.run_with_key`: execute a callable with automatic key
rotation on failure, raising `GeminiKeyExhaustedError` when no key succeeds. -/
def run_with_key {T : Type} (m : GeminiKeyManager) (fn : String → Except String T)
    (now : Nat) : Except GeminiKeyExhaustedError T × GeminiKeyManager :=
  runLoop fn now m.records.length m []

/-- One entry of the `get_statuses` snapshot. -/
structure KeyStatus where
  index : Nat
  maskedKey : String
  status : String
  disabled : Bool
  lastError : Option String
  lastUsedAt : Option String
  lastSuccessAt : Option String
  lastFailureAt : Option String
  successCount : Nat
  failureCount : Nat
  isLastUsed : Bool
deriving DecidableEq

/-- `GeminiKeyManager._format_ts`; the ISO-8601 rendering of the abstract tick
is abstracted to `toString` (injective; no claim depends on the exact text). -/
def format_ts : Option Nat → Option String
  | none => none
  | some ts => some (toString ts)

/-- One iteration of the `get_statuses` loop: the status dict built from
`(idx, record)`. -/
def mk_status (p : Nat × GeminiKeyRecord) : KeyStatus :=
  { index := p.1
    maskedKey := p.2.masked_key
    status := p.2.status
    disabled := p.2.disabled
    lastError := p.2.last_error
    lastUsedAt := format_ts p.2.last_used_at
    lastSuccessAt := format_ts p.2.last_success_at
    lastFailureAt := format_ts p.2.last_failure_at
    successCount := p.2.success_count
    failureCount := p.2.failure_count
    isLastUsed := p.2.last_used }

/-- `GeminiKeyManager.get_statuses`. -/
def get_statuses (m : GeminiKeyManager) : List KeyStatus :=
  m.records.enum.map mk_status

/-- `GeminiKeyManager.available_key_count`. -/
def available_key_count (m : GeminiKeyManager) : Nat :=
  m.records.countP (fun r => !r.disabled)

/-- Python `str.splitlines` on the multi-key variable, modelled as splitting on
newline or carriage-return characters; the extra empty chunks this produces
around `"\r\n"` (and the trailing empty chunk after a final newline, which
`splitlines` omits) are discarded by the strip-and-filter applied to every
chunk, so the resulting key list agrees with CPython's. -/
def split_env_chunks (s : String) : List String :=
  s.split (fun c => c == '\n' || c == '\r')

/-- The per-chunk parsing in `from_environment`:
`[part.strip() for part in chunk.split(",") if part.strip()]`. -/
def parse_chunk (chunk : String) : List String :=
  ((chunk.splitOn ",").map (fun part => part.trim)).filter (fun part => part ≠ "")

/-- The candidate key list `keys` built by `from_environment` before
deduplication: parse `GEMINI_API_KEYS` when it is set and non-empty, else fall
back to `GEMINI_API_KEY` (stripped). -/
def env_candidate_keys (gemini_api_keys gemini_api_key : Option String) : List String :=
  match gemini_api_keys with
  | some raw_keys =>
    if raw_keys ≠ "" then (split_env_chunks raw_keys).flatMap parse_chunk
    else
      match gemini_api_key with
      | some single_key => if single_key ≠ "" then [single_key.trim] else []
      | none => []
  | none =>
    match gemini_api_key with
    | some single_key => if single_key ≠ "" then [single_key.trim] else []
    | none => []

/-- The `# Remove duplicates while preserving order` loop of `from_environment`:
`seen` is the set of already-kept keys (modelled as a list; the Python set and
the accumulator list always hold the same elements). -/
def dedup_env_keys (seen : List String) : List String → List String
  | [] => []
  | key :: rest =>
    if key ≠ "" ∧ key ∉ seen then key :: dedup_env_keys (key :: seen) rest
    else dedup_env_keys seen rest

/-- `GeminiKeyManager.from_environment`, with the two environment variables
passed explicitly (`os.getenv` returning `None` is `none`). -/
def from_environment (gemini_api_keys gemini_api_key : Option String) :
    Except String GeminiKeyManager :=
  let unique_keys := dedup_env_keys [] (env_candidate_keys gemini_api_keys gemini_api_key)
  if unique_keys = [] then
    .error "No Gemini API keys found. Provide GEMINI_API_KEYS or GEMINI_API_KEY."
  else
    mkManager unique_keys

/-! ### Derived notions used to state the claims -/

/-- The raw secret held at an index. -/
def keyOf (m : GeminiKeyManager) (i : Nat) : String :=
  (getRec m.records i).raw_key

/-- The error text a failing unit of work produced (`""` for a success;
only ever read on failures). -/
def errStr {T : Type} : Except String T → String
  | .error e => e
  | .ok _ => ""

/-- The cyclic index sequence of one full scan: `(c + 0) % N, …, (c + N - 1) % N`. -/
def cyc (N c : Nat) : List Nat :=
  (List.range N).map (fun i => (c + i) % N)

/-- The eligible indices a single `run_with_key` call can attempt, in the order
the selector visits them: one full cycle starting at the cursor, keeping only
non-disabled records. -/
def eligible_order (m : GeminiKeyManager) : List Nat :=
  (cyc m.records.length m.next_index).filter (fun j => !(getRec m.records j).disabled)

/-- The failover loop as §4.3 of the specification words it: given the list of
eligible indices in visiting order, activate each in turn, stop and record
success at the first index whose work succeeds, otherwise record the failure
(disabling the key), append its error, and continue; raise the exhaustion
error carrying the accumulated errors when the list runs out. -/
def failover_exec {T : Type} (fn : String → Except String T) (now : Nat) :
    List Nat → GeminiKeyManager → List String →
    Except GeminiKeyExhaustedError T × GeminiKeyManager
  | [], m, errors => (.error ⟨exhaustedMessage, errors⟩, m)
  | index :: rest, m, errors =>
    let m₁ := activateAt m index now
    match fn ((getRec m₁.records index).raw_key) with
    | .error exc => failover_exec fn now rest (record_failure m₁ index exc now) (errors ++ [exc])
    | .ok result => (.ok result, record_success m₁ index now)

/-- `n` consecutive calls to the selector, collecting the returned indices. -/
def selectSeq (now : Nat) : Nat → GeminiKeyManager → List (Option Nat) × GeminiKeyManager
  | 0, m => ([], m)
  | n + 1, m =>
    let r := activate_next_index m now
    let rs := selectSeq now n r.2
    (r.1 :: rs.1, rs.2)

/-- `n` consecutive `run_with_key` calls with the same unit of work,
collecting the results. -/
def runSeq {T : Type} (fn : String → Except String T) (now : Nat) :
    Nat → GeminiKeyManager →
    List (Except GeminiKeyExhaustedError T) × GeminiKeyManager
  | 0, m => ([], m)
  | n + 1, m =>
    let r := run_with_key m fn now
    let rs := runSeq fn now n r.2
    (r.1 :: rs.1, rs.2)

/-- One atomic bookkeeping operation on the pool state: a selector call, or a
success/failure record at a valid index (the executor only ever records at
indices the selector returned, which are valid). -/
inductive Step : GeminiKeyManager → GeminiKeyManager → Prop
  | select (m : GeminiKeyManager) (now : Nat) :
      Step m (activate_next_index m now).2
  | success (m : GeminiKeyManager) (index now : Nat) :
      index < m.records.length → Step m (record_success m index now)
  | failure (m : GeminiKeyManager) (index now : Nat) (error : String) :
      index < m.records.length → Step m (record_failure m index error now)

/-! ### Access lemmas for `setRecord` / `getRec` -/

theorem length_setRecord (l : List GeminiKeyRecord) (i : Nat)
    (f : GeminiKeyRecord → GeminiKeyRecord) : (setRecord l i f).length = l.length := by
  unfold setRecord
  cases h : l[i]? with
  | none => rfl
  | some r => simp

theorem getRec_setRecord_self {l : List GeminiKeyRecord} {i : Nat}
    (f : GeminiKeyRecord → GeminiKeyRecord) (h : i < l.length) :
    getRec (setRecord l i f) i = f (getRec l i) := by
  unfold setRecord getRec
  rw [List.getElem?_eq_getElem h]
  simp [List.getElem?_set, h]

theorem getRec_setRecord_ne {l : List GeminiKeyRecord} {i j : Nat}
    (f : GeminiKeyRecord → GeminiKeyRecord) (h : i ≠ j) :
    getRec (setRecord l i f) j = getRec l j := by
  unfold setRecord getRec
  cases hl : l[i]? with
  | none => rfl
  | some r => simp [List.getElem?_set, h]

theorem getRec_setRecord_pres {α : Type} (g : GeminiKeyRecord → α)
    {l : List GeminiKeyRecord} {i : Nat} {f : GeminiKeyRecord → GeminiKeyRecord}
    (hf : ∀ r, g (f r) = g r) (j : Nat) :
    g (getRec (setRecord l i f) j) = g (getRec l j) := by
  by_cases hij : i = j
  · subst hij
    by_cases hi : i < l.length
    · rw [getRec_setRecord_self f hi, hf]
    · unfold setRecord
      rw [List.getElem?_eq_none (Nat.le_of_not_lt hi)]
  · rw [getRec_setRecord_ne f hij]

/-! ### Field preservation by the bookkeeping operations -/

theorem raw_key_setRecord (l : List GeminiKeyRecord) (i : Nat)
    (f : GeminiKeyRecord → GeminiKeyRecord) (hf : ∀ r, (f r).raw_key = r.raw_key)
    (j : Nat) : (getRec (setRecord l i f) j).raw_key = (getRec l j).raw_key := by
  by_cases hij : i = j
  · subst hij
    by_cases hi : i < l.length
    · rw [getRec_setRecord_self f hi, hf]
    · unfold setRecord
      rw [List.getElem?_eq_none (Nat.le_of_not_lt hi)]
  · rw [getRec_setRecord_ne f hij]

theorem disabled_setRecord (l : List GeminiKeyRecord) (i : Nat)
    (f : GeminiKeyRecord → GeminiKeyRecord) (hf : ∀ r, (f r).disabled = r.disabled)
    (j : Nat) : (getRec (setRecord l i f) j).disabled = (getRec l j).disabled := by
  by_cases hij : i = j
  · subst hij
    by_cases hi : i < l.length
    · rw [getRec_setRecord_self f hi, hf]
    · unfold setRecord
      rw [List.getElem?_eq_none (Nat.le_of_not_lt hi)]
  · rw [getRec_setRecord_ne f hij]

theorem last_used_setRecord (l : List GeminiKeyRecord) (i : Nat)
    (f : GeminiKeyRecord → GeminiKeyRecord) (hf : ∀ r, (f r).last_used = r.last_used)
    (j : Nat) : (getRec (setRecord l i f) j).last_used = (getRec l j).last_used := by
  by_cases hij : i = j
  · subst hij
    by_cases hi : i < l.length
    · rw [getRec_setRecord_self f hi, hf]
    · unfold setRecord
      rw [List.getElem?_eq_none (Nat.le_of_not_lt hi)]
  · rw [getRec_setRecord_ne f hij]

theorem length_activateAt (m : GeminiKeyManager) (i now : Nat) :
    (activateAt m i now).records.length = m.records.length :=
  length_setRecord ..

theorem length_clear_prev (m : GeminiKeyManager) (i : Nat) :
    (clear_prev_last_used m i).length = m.records.length := by
  unfold clear_prev_last_used
  cases m.last_used_index with
  | none => rfl
  | some prev =>
    dsimp only
    by_cases h : prev ≠ i
    · rw [if_pos h, length_setRecord]
    · rw [if_neg h]

theorem length_record_success (m : GeminiKeyManager) (i now : Nat) :
    (record_success m i now).records.length = m.records.length := by
  unfold record_success
  rw [length_setRecord, length_clear_prev]

theorem length_record_failure (m : GeminiKeyManager) (i : Nat) (e : String) (now : Nat) :
    (record_failure m i e now).records.length = m.records.length :=
  length_setRecord ..

theorem raw_key_clear_prev (m : GeminiKeyManager) (i j : Nat) :
    (getRec (clear_prev_last_used m i) j).raw_key = (getRec m.records j).raw_key := by
  unfold clear_prev_last_used
  cases m.last_used_index with
  | none => rfl
  | some prev =>
    dsimp only
    by_cases h : prev ≠ i
    · rw [if_pos h]
      apply raw_key_setRecord
      intro r
      rfl
    · rw [if_neg h]

theorem keyOf_activateAt (m : GeminiKeyManager) (i now j : Nat) :
    keyOf (activateAt m i now) j = keyOf m j := by
  unfold keyOf activateAt
  dsimp only
  apply raw_key_setRecord
  intro r
  rfl

theorem keyOf_record_success (m : GeminiKeyManager) (i now j : Nat) :
    keyOf (record_success m i now) j = keyOf m j := by
  unfold keyOf record_success
  dsimp only
  refine Eq.trans ?_ (raw_key_clear_prev m i j)
  apply raw_key_setRecord
  intro r
  rfl

theorem keyOf_record_failure (m : GeminiKeyManager) (i : Nat) (e : String) (now j : Nat) :
    keyOf (record_failure m i e now) j = keyOf m j := by
  unfold keyOf record_failure
  dsimp only
  apply raw_key_setRecord
  intro r
  rfl

theorem disabled_clear_prev (m : GeminiKeyManager) (i j : Nat) :
    (getRec (clear_prev_last_used m i) j).disabled = (getRec m.records j).disabled := by
  unfold clear_prev_last_used
  cases m.last_used_index with
  | none => rfl
  | some prev =>
    dsimp only
    by_cases h : prev ≠ i
    · rw [if_pos h]
      apply disabled_setRecord
      intro r
      rfl
    · rw [if_neg h]

theorem disabled_activateAt (m : GeminiKeyManager) (i now j : Nat) :
    (getRec (activateAt m i now).records j).disabled = (getRec m.records j).disabled := by
  unfold activateAt
  dsimp only
  apply disabled_setRecord
  intro r
  rfl

theorem disabled_record_success (m : GeminiKeyManager) (i now j : Nat) :
    (getRec (record_success m i now).records j).disabled = (getRec m.records j).disabled := by
  unfold record_success
  dsimp only
  refine Eq.trans ?_ (disabled_clear_prev m i j)
  apply disabled_setRecord
  intro r
  rfl

theorem disabled_record_failure_ne (m : GeminiKeyManager) {i : Nat} (e : String)
    (now : Nat) {j : Nat} (h : i ≠ j) :
    (getRec (record_failure m i e now).records j).disabled = (getRec m.records j).disabled := by
  unfold record_failure
  dsimp only
  rw [getRec_setRecord_ne _ h]

theorem disabled_record_failure_self (m : GeminiKeyManager) {i : Nat} (e : String)
    (now : Nat) (h : i < m.records.length) :
    (getRec (record_failure m i e now).records i).disabled = true := by
  unfold record_failure
  dsimp only
  rw [getRec_setRecord_self _ h]

/-! ### The cyclic visiting order -/

theorem cyc_length (N c : Nat) : (cyc N c).length = N := by
  simp [cyc]

theorem cyc_getElem (N c i : Nat) (h : i < (cyc N c).length) :
    (cyc N c)[i] = (c + i) % N := by
  simp [cyc]

theorem mem_cyc_lt {N c x : Nat} (hN : 0 < N) (hx : x ∈ cyc N c) : x < N := by
  simp only [cyc, List.mem_map] at hx
  obtain ⟨i, -, rfl⟩ := hx
  exact Nat.mod_lt _ hN

theorem cyc_nodup (N c : Nat) : (cyc N c).Nodup := by
  apply List.Nodup.map_on _ (List.nodup_range N)
  intro x hx y hy hxy
  rw [List.mem_range] at hx hy
  have h := Nat.ModEq.add_left_cancel' c (show c + x ≡ c + y [MOD N] from hxy)
  rwa [Nat.ModEq, Nat.mod_eq_of_lt hx, Nat.mod_eq_of_lt hy] at h

theorem cyc_pos_eq_cons {N c : Nat} (hc : c < N) :
    cyc N c = c :: (List.range (N - 1)).map (fun i => (c + 1 + i) % N) := by
  obtain ⟨n, rfl⟩ : ∃ n, N = n + 1 := ⟨N - 1, by omega⟩
  unfold cyc
  rw [List.range_succ_eq_map, List.map_cons, List.map_map]
  refine congrArg₂ _ (by rw [Nat.add_zero, Nat.mod_eq_of_lt hc]) ?_
  simp only [Nat.add_sub_cancel]
  refine List.map_congr_left (fun i _ => ?_)
  simp only [Function.comp_apply, Nat.succ_eq_add_one]
  congr 1
  omega

theorem cyc_rotate {N c : Nat} (hc : c < N) (k : Nat) :
    (cyc N c).rotate k = cyc N ((c + k) % N) := by
  have hN : 0 < N := Nat.lt_of_le_of_lt (Nat.zero_le c) hc
  apply List.ext_getElem
  · rw [List.length_rotate, cyc_length, cyc_length]
  · intro n h₁ h₂
    rw [List.getElem_rotate, cyc_getElem, cyc_getElem]
    rw [cyc_length, Nat.add_mod_mod, Nat.mod_add_mod]
    congr 1
    omega

/-! ### Characterizing the selector -/

theorem scanFrom_eq (records : List GeminiKeyRecord) (hN : 0 < records.length)
    (start : Nat) : ∀ (remaining offset : Nat),
    scanFrom records start offset remaining =
      (((List.range remaining).map (fun i => (start + offset + i) % records.length)).filter
        (fun j => !(getRec records j).disabled)).head? := by
  intro remaining
  induction remaining with
  | zero =>
    intro offset
    rfl
  | succ rem ih =>
    intro offset
    have hidx : (start + offset) % records.length < records.length := Nat.mod_lt _ hN
    have hget : getRec records ((start + offset) % records.length) =
        records[(start + offset) % records.length] := by
      unfold getRec
      rw [List.getElem?_eq_getElem hidx]
      rfl
    rw [List.range_succ_eq_map, List.map_cons, List.map_map, List.filter_cons]
    simp only [Nat.add_zero]
    simp only [scanFrom]
    rw [List.getElem?_eq_getElem hidx]
    dsimp only
    by_cases hd : records[(start + offset) % records.length].disabled
    · rw [if_pos hd, hget, hd]
      simp only [Bool.not_true, Bool.false_eq_true, if_false]
      rw [ih (offset + 1)]
      refine congrArg _ (congrArg _ (List.map_congr_left (fun i _ => ?_)))
      simp only [Function.comp_apply, Nat.succ_eq_add_one]
      congr 1
      omega
    · rw [if_neg hd, hget]
      rw [Bool.not_eq_true] at hd
      rw [hd]
      simp only [Bool.not_false, if_true]
      rfl

theorem scan_head (m : GeminiKeyManager) (hN : 0 < m.records.length) :
    scanFrom m.records m.next_index 0 m.records.length = (eligible_order m).head? := by
  rw [scanFrom_eq m.records hN m.next_index m.records.length 0]
  unfold eligible_order cyc
  simp only [Nat.add_zero]

theorem activate_eq_nil (m : GeminiKeyManager) (now : Nat) (h : eligible_order m = []) :
    activate_next_index m now = (none, m) := by
  unfold activate_next_index
  rcases Nat.eq_zero_or_pos m.records.length with hN | hN
  · rw [hN]
    rfl
  · rw [scan_head m hN, h]
    rfl

theorem elig_pos_of_cons {m : GeminiKeyManager} {j : Nat} {rest : List Nat}
    (h : eligible_order m = j :: rest) : 0 < m.records.length := by
  rcases Nat.eq_zero_or_pos m.records.length with h0 | h0
  · exfalso
    unfold eligible_order at h
    rw [h0] at h
    simp [cyc] at h
  · exact h0

theorem activate_eq_cons (m : GeminiKeyManager) (now : Nat) {j : Nat} {rest : List Nat}
    (h : eligible_order m = j :: rest) :
    activate_next_index m now = (some j, activateAt m j now) := by
  unfold activate_next_index
  rw [scan_head m (elig_pos_of_cons h), h]
  rfl

theorem eligible_after_failure (m : GeminiKeyManager) (now : Nat) (e : String)
    (hc : m.next_index < m.records.length) {j : Nat} {rest : List Nat}
    (h : eligible_order m = j :: rest) :
    eligible_order (record_failure (activateAt m j now) j e now) = rest := by
  have hN : 0 < m.records.length := Nat.lt_of_le_of_lt (Nat.zero_le _) hc
  unfold eligible_order at h
  obtain ⟨pre, suf, hdec, hpre, hj, hrest⟩ := List.filter_eq_cons_iff.mp h
  have hjN : j < m.records.length := by
    apply mem_cyc_lt hN
    rw [hdec]
    exact List.mem_append_right _ (List.mem_cons_self _ _)
  have hlenN : pre.length + 1 + suf.length = m.records.length := by
    have hcl := cyc_length m.records.length m.next_index
    rw [hdec] at hcl
    simp only [List.length_append, List.length_cons] at hcl
    omega
  have hplt : pre.length < (cyc m.records.length m.next_index).length := by
    rw [cyc_length]
    omega
  have hjeq : j = (m.next_index + pre.length) % m.records.length := by
    have h1 : (cyc m.records.length m.next_index)[pre.length]? =
        some ((m.next_index + pre.length) % m.records.length) := by
      rw [List.getElem?_eq_getElem hplt, cyc_getElem]
    have h2 : (cyc m.records.length m.next_index)[pre.length]? = some j := by
      rw [hdec, List.getElem?_append_right (Nat.le_refl _)]
      simp
    rw [h1] at h2
    exact (Option.some.inj h2).symm
  set m' := record_failure (activateAt m j now) j e now with hm'
  have hlen' : m'.records.length = m.records.length :=
    (length_record_failure ..).trans (length_activateAt ..)
  have hni' : m'.next_index = (j + 1) % m.records.length := rfl
  unfold eligible_order
  rw [hlen', hni']
  have hrot : cyc m.records.length ((j + 1) % m.records.length) = suf ++ (pre ++ [j]) := by
    have e1 : (j + 1) % m.records.length =
        (m.next_index + (pre.length + 1)) % m.records.length := by
      rw [hjeq, Nat.mod_add_mod]
      congr 1
    rw [e1, ← cyc_rotate hc (pre.length + 1)]
    rw [List.rotate_eq_drop_append_take (by rw [cyc_length]; omega)]
    rw [hdec, List.append_cons]
    rw [List.drop_left' (by simp), List.take_left' (by simp)]
  rw [hrot, List.filter_append]
  have hdisj : ∀ x, x ≠ j →
      (getRec m'.records x).disabled = (getRec m.records x).disabled := by
    intro x hx
    rw [hm']
    rw [disabled_record_failure_ne _ e now (fun hh => hx hh.symm)]
    rw [disabled_activateAt]
  have hjdis : (getRec m'.records j).disabled = true := by
    rw [hm']
    apply disabled_record_failure_self
    rw [length_activateAt]
    exact hjN
  have hsuf : List.filter (fun x => !(getRec m'.records x).disabled) suf = rest := by
    have hnodup : (j :: suf).Nodup := by
      have hnd := cyc_nodup m.records.length m.next_index
      rw [hdec] at hnd
      exact hnd.of_append_right
    have hjnot : j ∉ suf := (List.nodup_cons.mp hnodup).1
    have hcongr : List.filter (fun x => !(getRec m'.records x).disabled) suf
        = List.filter (fun x => !(getRec m.records x).disabled) suf := by
      apply List.filter_congr
      intro x hx
      have hxj : x ≠ j := fun hh => hjnot (hh ▸ hx)
      rw [hdisj x hxj]
    rw [hcongr, hrest]
  have hpre0 : List.filter (fun x => !(getRec m'.records x).disabled) (pre ++ [j]) = [] := by
    rw [List.filter_eq_nil_iff]
    intro x hx
    rcases List.mem_append.mp hx with hx | hx
    · by_cases hxj : x = j
      · subst hxj
        simp [hjdis]
      · simp only [hdisj x hxj]
        exact hpre x hx
    · have hxj : x = j := by simpa using hx
      subst hxj
      simp [hjdis]
  rw [hsuf, hpre0, List.append_nil]

/-! ### The executor loop follows the eligible order -/

theorem wf_after_failure (m : GeminiKeyManager) (now : Nat) (e : String) {j : Nat}
    (hjN : j < m.records.length) :
    (record_failure (activateAt m j now) j e now).next_index <
      (record_failure (activateAt m j now) j e now).records.length := by
  have hN : 0 < m.records.length := Nat.lt_of_le_of_lt (Nat.zero_le _) hjN
  have hlen' : (record_failure (activateAt m j now) j e now).records.length
      = m.records.length :=
    (length_record_failure ..).trans (length_activateAt ..)
  have hni' : (record_failure (activateAt m j now) j e now).next_index
      = (j + 1) % m.records.length := rfl
  rw [hlen', hni']
  exact Nat.mod_lt _ hN

theorem runLoop_eq_failover {T : Type} (fn : String → Except String T) (now : Nat) :
    ∀ (E : List Nat) (m : GeminiKeyManager) (errors : List String) (fuel : Nat),
      m.next_index < m.records.length →
      eligible_order m = E → E.length ≤ fuel →
      runLoop fn now fuel m errors = failover_exec fn now E m errors := by
  intro E
  induction E with
  | nil =>
    intro m errors fuel hwf hE hlen
    cases fuel with
    | zero => rfl
    | succ f =>
      simp only [runLoop]
      rw [activate_eq_nil m now hE]
      rfl
  | cons j rest ih =>
    intro m errors fuel hwf hE hlen
    have hN : 0 < m.records.length := Nat.lt_of_le_of_lt (Nat.zero_le _) hwf
    have hjN : j < m.records.length := by
      apply mem_cyc_lt hN
      have hjmem : j ∈ eligible_order m := by
        rw [hE]
        exact List.mem_cons_self _ _
      unfold eligible_order at hjmem
      exact (List.mem_filter.mp hjmem).1
    cases fuel with
    | zero =>
      exfalso
      simp at hlen
    | succ f =>
      simp only [runLoop, failover_exec]
      rw [activate_eq_cons m now hE]
      dsimp only
      cases hfn : fn ((getRec (activateAt m j now).records j).raw_key) with
      | ok v => rfl
      | error exc =>
        exact ih (record_failure (activateAt m j now) j exc now) (errors ++ [exc]) f
          (wf_after_failure m now exc hjN)
          (eligible_after_failure m now exc hwf hE)
          (by simp at hlen; omega)

theorem run_eq_failover {T : Type} (m : GeminiKeyManager) (fn : String → Except String T)
    (now : Nat) (hwf : m.next_index < m.records.length) :
    run_with_key m fn now = failover_exec fn now (eligible_order m) m [] := by
  apply runLoop_eq_failover fn now (eligible_order m) m [] m.records.length hwf rfl
  unfold eligible_order
  calc ((cyc m.records.length m.next_index).filter
          (fun j => !(getRec m.records j).disabled)).length
      ≤ (cyc m.records.length m.next_index).length := List.length_filter_le _ _
    _ = m.records.length := cyc_length ..

/-! ### Result characterization of the failover loop -/

theorem key_read_activateAt (m : GeminiKeyManager) (j now : Nat) :
    (getRec (activateAt m j now).records j).raw_key = keyOf m j :=
  keyOf_activateAt m j now j

theorem keyOf_after_failure (m : GeminiKeyManager) (j now : Nat) (exc : String) (x : Nat) :
    keyOf (record_failure (activateAt m j now) j exc now) x = keyOf m x := by
  rw [keyOf_record_failure, keyOf_activateAt]

theorem keyOf_after_success (m : GeminiKeyManager) (j now x : Nat) :
    keyOf (record_success (activateAt m j now) j now) x = keyOf m x := by
  rw [keyOf_record_success, keyOf_activateAt]

theorem failover_all_fail {T : Type} (fn : String → Except String T) (now : Nat) :
    ∀ (E : List Nat) (m : GeminiKeyManager) (errors : List String),
      (∀ j ∈ E, ¬(fn (keyOf m j)).isOk = true) →
      failover_exec fn now E m errors =
        ((.error ⟨exhaustedMessage,
            errors ++ E.map (fun j => errStr (fn (keyOf m j)))⟩ : Except GeminiKeyExhaustedError T),
          (failover_exec fn now E m errors).2) := by
  intro E
  induction E with
  | nil =>
    intro m errors _
    simp [failover_exec]
  | cons j rest ih =>
    intro m errors hall
    have hj := hall j (List.mem_cons_self _ _)
    cases hfn : fn (keyOf m j) with
    | ok v =>
      exfalso
      rw [hfn] at hj
      exact hj rfl
    | error exc =>
      simp only [failover_exec]
      rw [key_read_activateAt, hfn]
      dsimp only
      have htrans : ∀ x ∈ rest,
          ¬(fn (keyOf (record_failure (activateAt m j now) j exc now) x)).isOk = true := by
        intro x hx
        rw [keyOf_after_failure]
        exact hall x (List.mem_cons_of_mem _ hx)
      rw [ih _ _ htrans]
      have hmap : rest.map
            (fun x => errStr (fn (keyOf (record_failure (activateAt m j now) j exc now) x)))
          = rest.map (fun x => errStr (fn (keyOf m x))) :=
        List.map_congr_left (fun x _ => by rw [keyOf_after_failure])
      rw [hmap, List.map_cons, hfn]
      simp only [errStr]
      congr 1
      congr 1
      simp

theorem failover_has_ok {T : Type} (fn : String → Except String T) (now : Nat) :
    ∀ (E : List Nat) (m : GeminiKeyManager) (errors : List String),
      (∃ j ∈ E, (fn (keyOf m j)).isOk = true) →
      ∃ v, (failover_exec fn now E m errors).1 = .ok v := by
  intro E
  induction E with
  | nil =>
    rintro m errors ⟨j, hj, -⟩
    cases hj
  | cons j rest ih =>
    rintro m errors ⟨x, hx, hok⟩
    simp only [failover_exec]
    rw [key_read_activateAt]
    cases hfn : fn (keyOf m j) with
    | ok v => exact ⟨v, rfl⟩
    | error exc =>
      apply ih
      rcases List.mem_cons.mp hx with rfl | hx'
      · rw [hfn] at hok
        cases hok
      · refine ⟨x, hx', ?_⟩
        rw [keyOf_after_failure]
        exact hok

/-! ### The all-healthy pool: fairness machinery -/

theorem getRec_eq_getElem {l : List GeminiKeyRecord} {x : Nat} (h : x < l.length) :
    getRec l x = l[x] := by
  unfold getRec
  rw [List.getElem?_eq_getElem h]
  rfl

theorem getRec_mem {l : List GeminiKeyRecord} {x : Nat} (h : x < l.length) :
    getRec l x ∈ l := by
  rw [getRec_eq_getElem h]
  exact List.getElem_mem h

theorem eligible_order_all_enabled (m : GeminiKeyManager)
    (h : ∀ r ∈ m.records, r.disabled = false) :
    eligible_order m = cyc m.records.length m.next_index := by
  unfold eligible_order
  apply List.filter_eq_self.mpr
  intro x hx
  rcases Nat.eq_zero_or_pos m.records.length with h0 | hN
  · exfalso
    rw [h0] at hx
    simp [cyc] at hx
  · have hxN := mem_cyc_lt hN hx
    rw [h (getRec m.records x) (getRec_mem hxN)]
    rfl

theorem mem_cyc_of_lt {N c j : Nat} (hc : c < N) (hj : j < N) : j ∈ cyc N c := by
  unfold cyc
  rw [List.mem_map]
  refine ⟨(j + N - c) % N, List.mem_range.mpr (Nat.mod_lt _ (by omega)), ?_⟩
  rw [Nat.add_mod_mod, show c + (j + N - c) = j + N from by omega,
    Nat.add_mod_right, Nat.mod_eq_of_lt hj]

theorem all_enabled_of_pointwise {m m' : GeminiKeyManager}
    (hlen : m'.records.length = m.records.length)
    (hdis : ∀ x, (getRec m'.records x).disabled = (getRec m.records x).disabled)
    (h : ∀ r ∈ m.records, r.disabled = false) : ∀ r ∈ m'.records, r.disabled = false := by
  intro r hr
  obtain ⟨x, hx, rfl⟩ := List.mem_iff_getElem.mp hr
  rw [← getRec_eq_getElem hx, hdis x]
  exact h (getRec m.records x) (getRec_mem (by omega))

theorem select_step_all_enabled (m : GeminiKeyManager) (now : Nat)
    (hall : ∀ r ∈ m.records, r.disabled = false) (hwf : m.next_index < m.records.length) :
    activate_next_index m now = (some m.next_index, activateAt m m.next_index now) := by
  apply activate_eq_cons m now
  rw [eligible_order_all_enabled m hall, cyc_pos_eq_cons hwf]

theorem last_used_activateAt (m : GeminiKeyManager) (i now x : Nat) :
    (getRec (activateAt m i now).records x).last_used = (getRec m.records x).last_used := by
  unfold activateAt
  dsimp only
  apply last_used_setRecord
  intro r
  rfl

theorem selectSeq_all_enabled (now : Nat) :
    ∀ (n : Nat) (m : GeminiKeyManager),
      (∀ r ∈ m.records, r.disabled = false) → m.next_index < m.records.length →
      (selectSeq now n m).1 =
        (List.range n).map (fun i => some ((m.next_index + i) % m.records.length)) := by
  intro n
  induction n with
  | zero =>
    intro m _ _
    rfl
  | succ n ih =>
    intro m hall hwf
    have hN : 0 < m.records.length := Nat.lt_of_le_of_lt (Nat.zero_le _) hwf
    simp only [selectSeq]
    rw [select_step_all_enabled m now hall hwf]
    dsimp only
    have hall' : ∀ r ∈ (activateAt m m.next_index now).records, r.disabled = false :=
      all_enabled_of_pointwise (length_activateAt ..)
        (fun x => disabled_activateAt m m.next_index now x) hall
    have hwf' : (activateAt m m.next_index now).next_index <
        (activateAt m m.next_index now).records.length := by
      rw [length_activateAt]
      exact Nat.mod_lt _ hN
    rw [ih (activateAt m m.next_index now) hall' hwf']
    rw [List.range_succ_eq_map, List.map_cons, List.map_map]
    rw [show (m.next_index + 0) % m.records.length = m.next_index from by
      rw [Nat.add_zero, Nat.mod_eq_of_lt hwf]]
    refine congrArg _ ?_
    refine List.map_congr_left (fun i _ => ?_)
    simp only [Function.comp_apply, Nat.succ_eq_add_one]
    rw [show (activateAt m m.next_index now).next_index
        = (m.next_index + 1) % m.records.length from rfl]
    rw [show (activateAt m m.next_index now).records.length = m.records.length from
      length_activateAt ..]
    rw [Nat.mod_add_mod]
    rw [show m.next_index + 1 + i = m.next_index + (i + 1) from by omega]

theorem run_step_all_ok (m : GeminiKeyManager) (now : Nat)
    (hall : ∀ r ∈ m.records, r.disabled = false) (hwf : m.next_index < m.records.length) :
    run_with_key m (fun k => (Except.ok k : Except String String)) now =
      (.ok (keyOf m m.next_index),
        record_success (activateAt m m.next_index now) m.next_index now) := by
  rw [run_eq_failover m _ now hwf, eligible_order_all_enabled m hall, cyc_pos_eq_cons hwf]
  simp only [failover_exec]
  rw [key_read_activateAt]

theorem runSeq_all_ok (now : Nat) :
    ∀ (n : Nat) (m : GeminiKeyManager),
      (∀ r ∈ m.records, r.disabled = false) → m.next_index < m.records.length →
      (runSeq (fun k => (Except.ok k : Except String String)) now n m).1 =
        (List.range n).map
          (fun i => Except.ok (keyOf m ((m.next_index + i) % m.records.length))) := by
  intro n
  induction n with
  | zero =>
    intro m _ _
    rfl
  | succ n ih =>
    intro m hall hwf
    have hN : 0 < m.records.length := Nat.lt_of_le_of_lt (Nat.zero_le _) hwf
    simp only [runSeq]
    rw [run_step_all_ok m now hall hwf]
    dsimp only
    have hall' : ∀ r ∈ (record_success (activateAt m m.next_index now) m.next_index now).records,
        r.disabled = false :=
      all_enabled_of_pointwise
        ((length_record_success ..).trans (length_activateAt ..))
        (fun x => (disabled_record_success ..).trans (disabled_activateAt m m.next_index now x))
        hall
    have hwf' : (record_success (activateAt m m.next_index now) m.next_index now).next_index <
        (record_success (activateAt m m.next_index now) m.next_index now).records.length := by
      rw [(length_record_success ..).trans (length_activateAt ..)]
      exact Nat.mod_lt _ hN
    rw [ih _ hall' hwf']
    rw [List.range_succ_eq_map, List.map_cons, List.map_map]
    rw [show (m.next_index + 0) % m.records.length = m.next_index from by
      rw [Nat.add_zero, Nat.mod_eq_of_lt hwf]]
    refine congrArg _ ?_
    refine List.map_congr_left (fun i _ => ?_)
    simp only [Function.comp_apply, Nat.succ_eq_add_one]
    rw [keyOf_after_success]
    rw [show (record_success (activateAt m m.next_index now) m.next_index now).next_index
        = (m.next_index + 1) % m.records.length from rfl]
    rw [show (record_success (activateAt m m.next_index now) m.next_index now).records.length
        = m.records.length from (length_record_success ..).trans (length_activateAt ..)]
    rw [Nat.mod_add_mod]
    rw [show m.next_index + 1 + i = m.next_index + (i + 1) from by omega]

/-! ### Permanent disablement machinery -/

theorem scanFrom_not_disabled (records : List GeminiKeyRecord) (start : Nat) :
    ∀ (remaining offset i : Nat), scanFrom records start offset remaining = some i →
      (getRec records i).disabled = false := by
  intro remaining
  induction remaining with
  | zero =>
    intro offset i h
    cases h
  | succ rem ih =>
    intro offset i h
    simp only [scanFrom] at h
    cases hr : records[(start + offset) % records.length]? with
    | none =>
      rw [hr] at h
      cases h
    | some r =>
      rw [hr] at h
      dsimp only at h
      by_cases hd : r.disabled
      · rw [if_pos hd] at h
        exact ih (offset + 1) i h
      · rw [if_neg hd] at h
        have hi : (start + offset) % records.length = i := Option.some.inj h
        subst hi
        unfold getRec
        rw [hr]
        exact Bool.not_eq_true r.disabled |>.mp hd

theorem not_selected_of_disabled (m : GeminiKeyManager) (now : Nat) {j : Nat}
    (hd : (getRec m.records j).disabled = true) :
    (activate_next_index m now).1 ≠ some j := by
  unfold activate_next_index
  cases hscan : scanFrom m.records m.next_index 0 m.records.length with
  | none => simp
  | some i =>
    dsimp only
    intro hcontra
    have hij : i = j := Option.some.inj hcontra
    subst hij
    rw [scanFrom_not_disabled m.records m.next_index m.records.length 0 i hscan] at hd
    cases hd

theorem disabled_activate_snd (m : GeminiKeyManager) (now j : Nat) :
    (getRec (activate_next_index m now).2.records j).disabled =
      (getRec m.records j).disabled := by
  unfold activate_next_index
  cases hscan : scanFrom m.records m.next_index 0 m.records.length with
  | none => rfl
  | some i => exact disabled_activateAt m i now j

theorem disabled_mono_step {m m' : GeminiKeyManager} (h : Step m m') (j : Nat)
    (hd : (getRec m.records j).disabled = true) :
    (getRec m'.records j).disabled = true := by
  cases h with
  | select now => rw [disabled_activate_snd]; exact hd
  | success i now hi => rw [disabled_record_success]; exact hd
  | failure i now e hi =>
    by_cases hij : i = j
    · subst hij
      exact disabled_record_failure_self m e now hi
    · rw [disabled_record_failure_ne m e now hij]
      exact hd

theorem disabled_mono_rtg {m m' : GeminiKeyManager}
    (h : Relation.ReflTransGen Step m m') (j : Nat)
    (hd : (getRec m.records j).disabled = true) :
    (getRec m'.records j).disabled = true := by
  induction h with
  | refl => exact hd
  | tail _ hstep ih => exact disabled_mono_step hstep j ih

theorem available_decrement (m : GeminiKeyManager) (j : Nat) (e : String) (now : Nat)
    (hj : j < m.records.length) (hd : (getRec m.records j).disabled = false) :
    available_key_count (record_failure m j e now) + 1 = available_key_count m := by
  unfold available_key_count record_failure
  dsimp only
  unfold setRecord
  rw [List.getElem?_eq_getElem hj]
  dsimp only
  rw [List.countP_set _ _ _ _ hj]
  have hpj : (!m.records[j].disabled) = true := by
    rw [getRec_eq_getElem hj] at hd
    rw [hd]
    rfl
  rw [if_pos hpj]
  have hpos : 0 < m.records.countP (fun r => !r.disabled) :=
    List.countP_pos_iff.mpr ⟨m.records[j], List.getElem_mem hj, hpj⟩
  simp only [Bool.not_true, Bool.false_eq_true, if_false]
  omega

/-! ### The single `isLastUsed` holder invariant -/

theorem length_activate_snd (m : GeminiKeyManager) (now : Nat) :
    (activate_next_index m now).2.records.length = m.records.length := by
  unfold activate_next_index
  cases hscan : scanFrom m.records m.next_index 0 m.records.length with
  | none => rfl
  | some i => exact length_activateAt ..

theorem last_used_activate_snd (m : GeminiKeyManager) (now x : Nat) :
    (getRec (activate_next_index m now).2.records x).last_used =
      (getRec m.records x).last_used := by
  unfold activate_next_index
  cases hscan : scanFrom m.records m.next_index 0 m.records.length with
  | none => rfl
  | some i => exact last_used_activateAt m i now x

theorem lui_activate_snd (m : GeminiKeyManager) (now : Nat) :
    (activate_next_index m now).2.last_used_index = m.last_used_index := by
  unfold activate_next_index
  cases hscan : scanFrom m.records m.next_index 0 m.records.length with
  | none => rfl
  | some i => rfl

theorem last_used_record_success_self (m : GeminiKeyManager) {i : Nat} (now : Nat)
    (hi : i < m.records.length) :
    (getRec (record_success m i now).records i).last_used = true := by
  unfold record_success
  dsimp only
  rw [getRec_setRecord_self _ (by rw [length_clear_prev]; exact hi)]

theorem last_used_record_success_ne (m : GeminiKeyManager) {i : Nat} (now : Nat)
    {x : Nat} (hne : i ≠ x) :
    (getRec (record_success m i now).records x).last_used =
      (getRec (clear_prev_last_used m i) x).last_used := by
  unfold record_success
  dsimp only
  rw [getRec_setRecord_ne _ hne]

theorem last_used_record_failure_self (m : GeminiKeyManager) {i : Nat} (e : String)
    (now : Nat) (hi : i < m.records.length) :
    (getRec (record_failure m i e now).records i).last_used = false := by
  unfold record_failure
  dsimp only
  rw [getRec_setRecord_self _ hi]

theorem last_used_record_failure_ne (m : GeminiKeyManager) {i : Nat} (e : String)
    (now : Nat) {x : Nat} (hne : i ≠ x) :
    (getRec (record_failure m i e now).records x).last_used =
      (getRec m.records x).last_used := by
  unfold record_failure
  dsimp only
  rw [getRec_setRecord_ne _ hne]

/-- The invariant behind the claim: a record flagged `last_used` is the one
`_last_used_index` points at, and the pointer always points at a valid,
flagged record. -/
def lastUsedInv (m : GeminiKeyManager) : Prop :=
  (∀ i, i < m.records.length → (getRec m.records i).last_used = true →
    m.last_used_index = some i)
  ∧ ∀ p, m.last_used_index = some p →
      p < m.records.length ∧ (getRec m.records p).last_used = true

theorem lastUsedInv_init (keys : List String) : lastUsedInv (mkManagerState keys) := by
  constructor
  · intro i hi hlu
    exfalso
    have hlu' : (getRec (mkManagerState keys).records i).last_used = false := by
      rw [getRec_eq_getElem hi]
      simp [mkManagerState, mkRecord]
    rw [hlu'] at hlu
    cases hlu
  · intro p hp
    exact Option.noConfusion hp

theorem lastUsedInv_step {m m' : GeminiKeyManager} (h : Step m m') :
    lastUsedInv m → lastUsedInv m' := by
  rintro ⟨inv1, inv2⟩
  cases h with
  | select now =>
    constructor
    · intro x hx hlu
      rw [length_activate_snd] at hx
      rw [last_used_activate_snd] at hlu
      rw [lui_activate_snd]
      exact inv1 x hx hlu
    · intro p hp
      rw [lui_activate_snd] at hp
      have h2 := inv2 p hp
      exact ⟨by rw [length_activate_snd]; exact h2.1,
        by rw [last_used_activate_snd]; exact h2.2⟩
  | success i now hi =>
    constructor
    · intro x hx hlu
      show some i = some x
      by_cases hxi : x = i
      · rw [hxi]
      · exfalso
        rw [length_record_success] at hx
        rw [last_used_record_success_ne m now (fun hh => hxi hh.symm)] at hlu
        cases hlui : m.last_used_index with
        | none =>
          rw [show clear_prev_last_used m i = m.records from by
            unfold clear_prev_last_used; rw [hlui]] at hlu
          have hcontra := inv1 x hx hlu
          rw [hlui] at hcontra
          cases hcontra
        | some prev =>
          by_cases hpi : prev ≠ i
          · rw [show clear_prev_last_used m i =
                setRecord m.records prev (fun r => { r with last_used := false }) from by
              unfold clear_prev_last_used; rw [hlui]; dsimp only; rw [if_pos hpi]] at hlu
            by_cases hxp : prev = x
            · subst hxp
              rw [getRec_setRecord_self _ (inv2 prev hlui).1] at hlu
              cases hlu
            · rw [getRec_setRecord_ne _ hxp] at hlu
              have hcontra := inv1 x hx hlu
              rw [hlui] at hcontra
              exact hxp (Option.some.inj hcontra)
          · rw [show clear_prev_last_used m i = m.records from by
              unfold clear_prev_last_used; rw [hlui]; dsimp only; rw [if_neg hpi]] at hlu
            have hx2 := inv1 x hx hlu
            rw [hlui] at hx2
            have hpx : prev = x := Option.some.inj hx2
            have hpieq : prev = i := not_ne_iff.mp hpi
            exact hxi (hpx ▸ hpieq)
    · intro p hp
      have hip : i = p := Option.some.inj hp
      subst hip
      exact ⟨by rw [length_record_success]; exact hi,
        last_used_record_success_self m now hi⟩
  | failure i now e hi =>
    constructor
    · intro x hx hlu
      rw [length_record_failure] at hx
      by_cases hxi : x = i
      · exfalso
        subst hxi
        rw [last_used_record_failure_self m e now hi] at hlu
        cases hlu
      · rw [last_used_record_failure_ne m e now (fun hh => hxi hh.symm)] at hlu
        have hx2 := inv1 x hx hlu
        show (if m.last_used_index = some i then none else m.last_used_index) = some x
        rw [hx2]
        rw [if_neg (fun hh => hxi (Option.some.inj hh))]
    · intro p hp
      have hp' : (if m.last_used_index = some i then none else m.last_used_index)
          = some p := hp
      by_cases hli : m.last_used_index = some i
      · rw [if_pos hli] at hp'
        cases hp'
      · rw [if_neg hli] at hp'
        have h2 := inv2 p hp'
        have hpi : p ≠ i := fun hh => hli (hh ▸ hp')
        exact ⟨by rw [length_record_failure]; exact h2.1,
          by rw [last_used_record_failure_ne m e now (fun hh => hpi hh.symm)]; exact h2.2⟩

/-- States reachable from construction by the pool's bookkeeping operations. -/
def Reachable (keys : List String) (m : GeminiKeyManager) : Prop :=
  Relation.ReflTransGen Step (mkManagerState keys) m

theorem lastUsedInv_reachable {keys : List String} {m : GeminiKeyManager}
    (h : Reachable keys m) : lastUsedInv m := by
  induction h with
  | refl => exact lastUsedInv_init keys
  | tail _ hstep ih => exact lastUsedInv_step hstep ih

/-! ### Snapshot counting and environment parsing -/

theorem filter_status_length :
    ∀ (l : List GeminiKeyRecord) (n : Nat),
      (((List.enumFrom n l).map mk_status).filter (fun s => !s.disabled)).length
        = (l.filter (fun r => !r.disabled)).length := by
  intro l
  induction l with
  | nil => intro n; rfl
  | cons r t ih =>
    intro n
    simp only [List.enumFrom, List.map_cons, List.filter_cons]
    dsimp only [mk_status]
    by_cases hq : (!r.disabled) = true
    · rw [if_pos hq, if_pos hq]
      simp only [List.length_cons, ih]
    · rw [if_neg hq, if_neg hq]
      exact ih (n + 1)

theorem dedup_sublist : ∀ (l seen : List String), (dedup_env_keys seen l).Sublist l := by
  intro l
  induction l with
  | nil =>
    intro seen
    exact List.Sublist.refl []
  | cons k rest ih =>
    intro seen
    simp only [dedup_env_keys]
    by_cases h : k ≠ "" ∧ k ∉ seen
    · rw [if_pos h]
      exact (ih (k :: seen)).cons₂ k
    · rw [if_neg h]
      exact (ih seen).cons k

theorem dedup_mem : ∀ (l seen : List String) (k : String),
    k ∈ dedup_env_keys seen l ↔ (k ∈ l ∧ k ≠ "" ∧ k ∉ seen) := by
  intro l
  induction l with
  | nil =>
    intro seen k
    simp [dedup_env_keys]
  | cons a rest ih =>
    intro seen k
    simp only [dedup_env_keys]
    by_cases h : a ≠ "" ∧ a ∉ seen
    · rw [if_pos h]
      constructor
      · intro hk
        rcases List.mem_cons.mp hk with rfl | hk'
        · exact ⟨List.mem_cons_self _ _, h.1, h.2⟩
        · have hrec := (ih (a :: seen) k).mp hk'
          exact ⟨List.mem_cons_of_mem _ hrec.1, hrec.2.1,
            fun hs => hrec.2.2 (List.mem_cons_of_mem _ hs)⟩
      · rintro ⟨hkl, hke, hks⟩
        rcases List.mem_cons.mp hkl with rfl | hk'
        · exact List.mem_cons_self _ _
        · by_cases hka : k = a
          · subst hka
            exact List.mem_cons_self _ _
          · refine List.mem_cons_of_mem _ ((ih (a :: seen) k).mpr ⟨hk', hke, ?_⟩)
            intro hmem
            rcases List.mem_cons.mp hmem with h1 | h1
            · exact hka h1
            · exact hks h1
    · rw [if_neg h]
      rw [ih seen k]
      constructor
      · rintro ⟨hkl, hke, hks⟩
        exact ⟨List.mem_cons_of_mem _ hkl, hke, hks⟩
      · rintro ⟨hkl, hke, hks⟩
        rcases List.mem_cons.mp hkl with rfl | hk'
        · exact absurd ⟨hke, hks⟩ h
        · exact ⟨hk', hke, hks⟩

theorem dedup_nodup : ∀ (l seen : List String), (dedup_env_keys seen l).Nodup := by
  intro l
  induction l with
  | nil =>
    intro seen
    exact List.nodup_nil
  | cons a rest ih =>
    intro seen
    simp only [dedup_env_keys]
    by_cases h : a ≠ "" ∧ a ∉ seen
    · rw [if_pos h]
      refine List.nodup_cons.mpr ⟨?_, ih (a :: seen)⟩
      intro hmem
      exact ((dedup_mem rest (a :: seen) a).mp hmem).2.2 (List.mem_cons_self _ _)
    · rw [if_neg h]
      exact ih seen

theorem env_candidate_trimmed (mk sk : Option String) :
    ∀ k ∈ env_candidate_keys mk sk, ∃ p : String, k = p.trim := by
  have hsingle : ∀ k ∈ (match sk with
      | some single_key => if single_key ≠ "" then [single_key.trim] else []
      | none => ([] : List String)), ∃ p : String, k = p.trim := by
    intro k hk
    cases sk with
    | none => cases hk
    | some s =>
      dsimp only at hk
      by_cases hs : s ≠ ""
      · rw [if_pos hs] at hk
        rcases List.mem_cons.mp hk with rfl | hk'
        · exact ⟨s, rfl⟩
        · cases hk'
      · rw [if_neg hs] at hk
        cases hk
  intro k hk
  unfold env_candidate_keys at hk
  cases mk with
  | none => exact hsingle k hk
  | some raw =>
    dsimp only at hk
    by_cases hraw : raw ≠ ""
    · rw [if_pos hraw] at hk
      rw [List.mem_flatMap] at hk
      obtain ⟨chunk, -, hk⟩ := hk
      unfold parse_chunk at hk
      rw [List.mem_filter] at hk
      obtain ⟨hk, -⟩ := hk
      rw [List.mem_map] at hk
      obtain ⟨part, -, rfl⟩ := hk
      exact ⟨part, rfl⟩
    · rw [if_neg hraw] at hk
      exact hsingle k hk

theorem length_filter_eq_of_nodup {l : List Nat} (hnd : l.Nodup) {j : Nat} (hj : j ∈ l) :
    (l.filter (fun x => x = j)).length = 1 := by
  induction l with
  | nil => cases hj
  | cons a t ih =>
    rw [List.filter_cons]
    rcases List.mem_cons.mp hj with rfl | hjt
    · rw [if_pos (by simp)]
      have hnotin := (List.nodup_cons.mp hnd).1
      have hnil : t.filter (fun x => x = j) = [] :=
        List.filter_eq_nil_iff.mpr (fun x hx hxa => by
          have hxe : x = j := by simpa using hxa
          exact hnotin (hxe ▸ hx))
      rw [hnil]
      rfl
    · by_cases haj : a = j
      · exfalso
        exact (List.nodup_cons.mp hnd).1 (haj ▸ hjt)
      · rw [if_neg (by simpa using haj)]
        exact ih (List.nodup_cons.mp hnd).2 hjt

/-! ### Claims -/

/-- C6: for every secret, the masked identity equals first-2 ++ `"***"` ++
last-2 when the length is at most 10, and first-6 ++ `"..."` ++ last-4
otherwise (`key.drop (key.length - n)` is the last-`n`-characters slice
`key[-n:]`); the derivation is deterministic, and it depends only on those
boundary slices, so no other character of the secret can influence (or leak
into) the masked identity. -/
theorem C6_masked_identity (key : String) :
    (key.length ≤ 10 →
      mask_key key = key.take 2 ++ "***" ++ key.drop (key.length - 2))
    ∧ (10 < key.length →
      mask_key key = key.take 6 ++ "..." ++ key.drop (key.length - 4))
    ∧ (∀ k₂ : String, k₂ = key → mask_key k₂ = mask_key key)
    ∧ (∀ k₂ : String, key.length ≤ 10 → k₂.length ≤ 10 →
        k₂.take 2 = key.take 2 → k₂.drop (k₂.length - 2) = key.drop (key.length - 2) →
        mask_key k₂ = mask_key key)
    ∧ (∀ k₂ : String, 10 < key.length → 10 < k₂.length →
        k₂.take 6 = key.take 6 → k₂.drop (k₂.length - 4) = key.drop (key.length - 4) →
        mask_key k₂ = mask_key key) := by
  refine ⟨?_, ?_, ?_, ?_, ?_⟩
  · intro h
    unfold mask_key
    rw [if_pos h]
  · intro h
    unfold mask_key
    rw [if_neg (Nat.not_le_of_lt h)]
  · intro k₂ h
    rw [h]
  · intro k₂ h1 h2 ht hd
    unfold mask_key
    rw [if_pos h1, if_pos h2, ht, hd]
  · intro k₂ h1 h2 ht hd
    unfold mask_key
    rw [if_neg (Nat.not_le_of_lt h1), if_neg (Nat.not_le_of_lt h2), ht, hd]

theorem C6_witness :
    mask_key "secretkey" =
      "secretkey".take 2 ++ "***" ++ "secretkey".drop ("secretkey".length - 2)
    ∧ mask_key "secretkey12" =
      "secretkey12".take 6 ++ "..." ++ "secretkey12".drop ("secretkey12".length - 4) :=
  ⟨(C6_masked_identity "secretkey").1 (by decide),
   (C6_masked_identity "secretkey12").2.1 (by decide)⟩

/-- C7: in every pool state, `available_key_count` equals the number of
entries of the `get_statuses` snapshot whose `disabled` field is false. -/
theorem C7_count_snapshot_consistency (m : GeminiKeyManager) :
    available_key_count m = ((get_statuses m).filter (fun s => !s.disabled)).length := by
  unfold available_key_count get_statuses
  rw [List.countP_eq_length_filter, List.enum_eq_enumFrom]
  exact (filter_status_length m.records 0).symm

/-- C9: when every record of the pool is disabled, the selector returns
"none eligible" and the returned state is the argument state itself — the
cursor, every record, and all timestamps are unchanged. -/
theorem C9_no_eligible_frame (m : GeminiKeyManager) (now : Nat)
    (h : ∀ r ∈ m.records, r.disabled = true) :
    activate_next_index m now = (none, m) := by
  apply activate_eq_nil
  unfold eligible_order
  rw [List.filter_eq_nil_iff]
  intro x hx
  rcases Nat.eq_zero_or_pos m.records.length with h0 | hN
  · exfalso
    rw [h0] at hx
    simp [cyc] at hx
  · rw [h (getRec m.records x) (getRec_mem (mem_cyc_lt hN hx))]
    simp

theorem C9_witness :
    activate_next_index
        (record_failure (record_failure (mkManagerState ["a", "b"]) 0 "x" 1) 1 "y" 2) 9 =
      (none, record_failure (record_failure (mkManagerState ["a", "b"]) 0 "x" 1) 1 "y" 2) :=
  C9_no_eligible_frame
    (record_failure (record_failure (mkManagerState ["a", "b"]) 0 "x" 1) 1 "y" 2) 9 (by decide)

/-- C10: for secrets of length at most 4, the first-2 slice and the last-2
slice (`key.drop (key.length - 2)`, i.e. `key[-2:]`) jointly cover every
character, so the masked identity `first2 ++ "***" ++ last2` reveals the
entire raw credential: the secret is reconstructed exactly from the two
visible slices (e.g. `"abc"` is masked as `"ab***bc"`, which exposes all of
`"abc"`). -/
theorem C10_short_secret_disclosure (key : String) (h : key.length ≤ 4) :
    mask_key key = key.take 2 ++ "***" ++ key.drop (key.length - 2)
    ∧ key.take 2 ++ (key.drop (key.length - 2)).drop (4 - key.length) = key := by
  constructor
  · unfold mask_key
    rw [if_pos (by omega)]
  · cases key with
    | mk l =>
      simp only [String.mk_length] at h
      apply String.ext
      simp only [String.data_append, String.data_take, String.data_drop, String.mk_length]
      rw [List.drop_drop]
      by_cases h2 : 2 ≤ l.length
      · rw [show l.length - 2 + (4 - l.length) = 2 from by omega]
        exact List.take_append_drop 2 l
      · rw [show l.length - 2 + (4 - l.length) = 4 - l.length from by omega]
        rw [List.drop_eq_nil_of_le (by omega), List.append_nil]
        exact List.take_of_length_le (by omega)

theorem C10_witness :
    ("abc".length ≤ 4)
    ∧ mask_key "abc" = "abc".take 2 ++ "***" ++ "abc".drop ("abc".length - 2)
    ∧ "abc".take 2 ++ ("abc".drop ("abc".length - 2)).drop (4 - "abc".length) = "abc" :=
  ⟨by decide, (C10_short_secret_disclosure "abc" (by decide)).1,
   (C10_short_secret_disclosure "abc" (by decide)).2⟩

/-- C1: round-robin fairness: in a pool with no disabled key and a valid
cursor `c`, `size` consecutive selector calls return exactly the indices
`(c + 0) % size, …, (c + size - 1) % size` — every index exactly once, in
ascending cyclic order from the cursor — and `size` consecutive
`run_with_key` calls whose work always succeeds use each key exactly once in
that same order. -/
theorem C1_round_robin_fairness (m : GeminiKeyManager) (now : Nat)
    (hall : ∀ r ∈ m.records, r.disabled = false)
    (hwf : m.next_index < m.records.length) :
    (selectSeq now m.records.length m).1 =
      (List.range m.records.length).map
        (fun i => some ((m.next_index + i) % m.records.length))
    ∧ (∀ j, j < m.records.length →
        ((selectSeq now m.records.length m).1.filter (fun o => o = some j)).length = 1)
    ∧ (runSeq (fun k => (Except.ok k : Except String String)) now m.records.length m).1 =
        (List.range m.records.length).map
          (fun i => Except.ok (keyOf m ((m.next_index + i) % m.records.length))) := by
  refine ⟨selectSeq_all_enabled now m.records.length m hall hwf, ?_,
    runSeq_all_ok now m.records.length m hall hwf⟩
  intro j hj
  rw [selectSeq_all_enabled now m.records.length m hall hwf]
  have hmap : (List.range m.records.length).map
      (fun i => some ((m.next_index + i) % m.records.length))
      = (cyc m.records.length m.next_index).map some := by
    unfold cyc
    rw [List.map_map]
    rfl
  rw [hmap, List.filter_map, List.length_map]
  have hcongr : ∀ x ∈ cyc m.records.length m.next_index,
      ((fun o => decide (o = some j)) ∘ some) x = decide (x = j) := by
    intro x _
    simp
  rw [List.filter_congr hcongr]
  exact length_filter_eq_of_nodup (cyc_nodup ..) (mem_cyc_of_lt hwf hj)

theorem C1_witness :
    (selectSeq 7 (mkManagerState ["alpha", "beta", "gamma"]).records.length
        (mkManagerState ["alpha", "beta", "gamma"])).1 =
      (List.range (mkManagerState ["alpha", "beta", "gamma"]).records.length).map
        (fun i => some (((mkManagerState ["alpha", "beta", "gamma"]).next_index + i) %
          (mkManagerState ["alpha", "beta", "gamma"]).records.length)) :=
  (C1_round_robin_fairness (mkManagerState ["alpha", "beta", "gamma"]) 7
    (by decide) (by decide)).1

/-- C3: a single `run_with_key` call is exactly the failover loop over the
eligible indices in rotation order (non-disabled indices in cyclic order from
the cursor): each failing attempt disables its key via `record_failure` and
appends its error, in attempt order; and if the work succeeds on the first
eligible key, the call records success on that key and returns the work's
value immediately, touching no further key. -/
theorem C3_in_call_failover {T : Type} (m : GeminiKeyManager)
    (fn : String → Except String T) (now : Nat)
    (hwf : m.next_index < m.records.length) :
    run_with_key m fn now = failover_exec fn now (eligible_order m) m []
    ∧ ∀ j rest, eligible_order m = j :: rest →
        ∀ v, fn (keyOf m j) = .ok v →
          run_with_key m fn now = (.ok v, record_success (activateAt m j now) j now) := by
  refine ⟨run_eq_failover m fn now hwf, ?_⟩
  intro j rest hE v hv
  rw [run_eq_failover m fn now hwf, hE]
  simp only [failover_exec]
  rw [key_read_activateAt, hv]

theorem C3_witness :
    run_with_key (mkManagerState ["good", "bad"])
        (fun k => (Except.ok k : Except String String)) 5 =
      (.ok "good",
        record_success (activateAt (mkManagerState ["good", "bad"]) 0 5) 0 5) :=
  (C3_in_call_failover (mkManagerState ["good", "bad"])
      (fun k => (Except.ok k : Except String String)) 5 (by decide)).2
    0 [1] (by decide) "good" (by decide)

/-- C2: `run_with_key` returns the exhaustion error exactly when no eligible
key's work succeeded (in particular, when no key was eligible at all), and
the raised error carries the captured per-attempt error texts, one per
attempted key, in attempt order — so its length equals the number of keys
attempted, zero when none was eligible. -/
theorem C2_exhaustion_error {T : Type} (m : GeminiKeyManager)
    (fn : String → Except String T) (now : Nat)
    (hwf : m.next_index < m.records.length) :
    ((∃ err, (run_with_key m fn now).1 = .error err) ↔
        ∀ j ∈ eligible_order m, ¬(fn (keyOf m j)).isOk = true)
    ∧ ∀ err, (run_with_key m fn now).1 = .error err →
        err.errors = (eligible_order m).map (fun j => errStr (fn (keyOf m j)))
        ∧ err.errors.length = (eligible_order m).length := by
  have hrun := run_eq_failover m fn now hwf
  have hall_of_err : ∀ err, (run_with_key m fn now).1 = .error err →
      ∀ j ∈ eligible_order m, ¬(fn (keyOf m j)).isOk = true := by
    intro err herr
    by_contra hnot
    push_neg at hnot
    obtain ⟨j, hj, hok⟩ := hnot
    obtain ⟨v, hv⟩ := failover_has_ok fn now (eligible_order m) m []
      ⟨j, hj, Bool.not_not_eq.mp (by simpa using hok)⟩
    rw [hrun, hv] at herr
    cases herr
  constructor
  · constructor
    · rintro ⟨err, herr⟩
      exact hall_of_err err herr
    · intro hall
      refine ⟨⟨exhaustedMessage,
        [] ++ (eligible_order m).map (fun j => errStr (fn (keyOf m j)))⟩, ?_⟩
      rw [hrun, failover_all_fail fn now (eligible_order m) m [] hall]
  · intro err herr
    have hall := hall_of_err err herr
    rw [hrun, failover_all_fail fn now (eligible_order m) m [] hall] at herr
    dsimp only at herr
    have herr' := Except.error.inj herr
    constructor
    · rw [← herr']
      simp
    · rw [← herr']
      simp

theorem C2_witness :
    ∃ err, (run_with_key (mkManagerState ["a", "b"])
        (fun k => (Except.error ("bad " ++ k) : Except String Nat)) 3).1 = .error err :=
  (C2_exhaustion_error (mkManagerState ["a", "b"])
      (fun k => (Except.error ("bad " ++ k) : Except String Nat)) 3 (by decide)).1.mpr
    (by decide)

/-- C4: permanent disablement: a disabled flag survives every further
bookkeeping operation (selection, success recording, failure recording) —
once true it stays true; a disabled key is never returned by the selector;
and recording a failure on a currently enabled key decreases
`available_key_count` by exactly one. -/
theorem C4_permanent_disablement :
    (∀ (m m' : GeminiKeyManager), Relation.ReflTransGen Step m m' →
      ∀ j, (getRec m.records j).disabled = true → (getRec m'.records j).disabled = true)
    ∧ (∀ (m : GeminiKeyManager) (now j : Nat),
        (getRec m.records j).disabled = true → (activate_next_index m now).1 ≠ some j)
    ∧ ∀ (m : GeminiKeyManager) (j : Nat) (e : String) (now : Nat),
        j < m.records.length → (getRec m.records j).disabled = false →
        available_key_count (record_failure m j e now) + 1 = available_key_count m :=
  ⟨fun _ _ h j hd => disabled_mono_rtg h j hd,
   fun m now _ hd => not_selected_of_disabled m now hd,
   fun m j e now hj hd => available_decrement m j e now hj hd⟩

theorem C4_witness :
    available_key_count (record_failure (mkManagerState ["a", "b"]) 0 "boom" 3) + 1
      = available_key_count (mkManagerState ["a", "b"]) :=
  C4_permanent_disablement.2.2 (mkManagerState ["a", "b"]) 0 "boom" 3 (by decide) (by decide)

/-- C5: in every state reachable from construction by selector calls and
success/failure recordings (at valid indices), at most one record has
`last_used = true`, and when a record does, `_last_used_index` is `some` of
exactly that record's index. -/
theorem C5_single_last_used_holder (keys : List String) (m : GeminiKeyManager)
    (h : Reachable keys m) :
    (∀ i j, i < m.records.length → j < m.records.length →
      (getRec m.records i).last_used = true → (getRec m.records j).last_used = true →
      i = j)
    ∧ ∀ i, i < m.records.length → (getRec m.records i).last_used = true →
        m.last_used_index = some i := by
  have hinv := lastUsedInv_reachable h
  refine ⟨?_, hinv.1⟩
  intro i j hi hj hlui hluj
  have h1 := hinv.1 i hi hlui
  have h2 := hinv.1 j hj hluj
  rw [h1] at h2
  exact Option.some.inj h2

theorem C5_witness :
    (record_success (mkManagerState ["alpha", "beta"]) 0 5).last_used_index = some 0 :=
  (C5_single_last_used_holder ["alpha", "beta"]
      (record_success (mkManagerState ["alpha", "beta"]) 0 5)
      (Relation.ReflTransGen.single
        (Step.success (mkManagerState ["alpha", "beta"]) 0 5 (by decide)))).2
    0 (by decide) (by decide)

/-- C8: environment construction: the candidate keys are the multi-key
variable's newline-separated groups, comma-split, trimmed, with empty entries
discarded (falling back to the trimmed single-key variable when the multi-key
variable is absent or empty); the constructed key list removes duplicates
while preserving first-seen order (it is duplicate-free, a sublist of the
candidates, and keeps exactly the non-empty candidates); every candidate is a
trimmed string; and construction fails with the configuration error exactly
when the resulting key list is empty. -/
theorem C8_environment_parsing (gemini_api_keys gemini_api_key : Option String) :
    ((from_environment gemini_api_keys gemini_api_key).isOk = true ↔
        dedup_env_keys [] (env_candidate_keys gemini_api_keys gemini_api_key) ≠ [])
    ∧ (∀ m, from_environment gemini_api_keys gemini_api_key = .ok m →
        m.records.map (fun r => r.raw_key) =
          dedup_env_keys [] (env_candidate_keys gemini_api_keys gemini_api_key))
    ∧ (dedup_env_keys [] (env_candidate_keys gemini_api_keys gemini_api_key)).Nodup
    ∧ (dedup_env_keys [] (env_candidate_keys gemini_api_keys gemini_api_key)).Sublist
        (env_candidate_keys gemini_api_keys gemini_api_key)
    ∧ (∀ k, k ∈ dedup_env_keys [] (env_candidate_keys gemini_api_keys gemini_api_key) ↔
        (k ∈ env_candidate_keys gemini_api_keys gemini_api_key ∧ k ≠ ""))
    ∧ (∀ k ∈ env_candidate_keys gemini_api_keys gemini_api_key, ∃ p : String, k = p.trim)
    ∧ (gemini_api_keys = none ∨ gemini_api_keys = some "" →
        env_candidate_keys gemini_api_keys gemini_api_key =
          match gemini_api_key with
          | some single_key => if single_key ≠ "" then [single_key.trim] else []
          | none => []) := by
  refine ⟨?_, ?_, dedup_nodup _ [], dedup_sublist _ [], ?_, env_candidate_trimmed _ _, ?_⟩
  · unfold from_environment
    by_cases hu : dedup_env_keys [] (env_candidate_keys gemini_api_keys gemini_api_key) = []
    · rw [if_pos hu]
      simp [Except.isOk, Except.toBool, hu]
    · rw [if_neg hu]
      unfold mkManager
      rw [if_neg hu]
      simp [Except.isOk, Except.toBool, hu]
  · intro m hm
    unfold from_environment at hm
    by_cases hu : dedup_env_keys [] (env_candidate_keys gemini_api_keys gemini_api_key) = []
    · rw [if_pos hu] at hm
      cases hm
    · rw [if_neg hu] at hm
      unfold mkManager at hm
      rw [if_neg hu] at hm
      have hms := Except.ok.inj hm
      rw [← hms]
      unfold mkManagerState
      dsimp only
      rw [List.map_map]
      refine List.map_id'' ?_ _
      intro x
      rfl
  · intro k
    rw [dedup_mem]
    constructor
    · rintro ⟨h1, h2, -⟩
      exact ⟨h1, h2⟩
    · rintro ⟨h1, h2⟩
      exact ⟨h1, h2, fun hf => absurd hf (List.not_mem_nil k)⟩
  · intro hcase
    rcases hcase with rfl | rfl
    · rfl
    · unfold env_candidate_keys
      dsimp only
      rw [if_neg (fun hne => hne rfl)]

theorem C8_witness : ¬(from_environment none none).isOk = true :=
  fun hok => (C8_environment_parsing none none).1.mp hok rfl
